import Mathlib

/-!
Verification development for the AXOS variable-configurator core
(`process_csv.py`): type-width inference, row expansion, greedy handler
assignment, offset projection and record serialization, shallowly embedded
as executable Lean definitions, together with the properties of the spec.
-/

/-! ## TypeWidthResolver: embedding of `infer_type_size` -/

/-- Decimal value of a list of digit characters, as Python `int(str)` on a
digit string. -/
def digitsVal (cs : List Char) : Nat :=
  cs.foldl (fun acc c => 10 * acc + (c.toNat - '0'.toNat)) 0

/-- Python `str.upper()` on a character list. -/
def pyUpper (cs : List Char) : List Char := cs.map Char.toUpper

/-- Python `str.strip()` on a character list: drop whitespace at both ends. -/
def pyStrip (cs : List Char) : List Char :=
  ((cs.dropWhile Char.isWhitespace).reverse.dropWhile Char.isWhitespace).reverse

/-- The maximal run of digits at the end of a string, as matched by the
regex searching for a digit run anchored at the end of the string. -/
def trailingDigits (cs : List Char) : List Char :=
  (cs.reverse.takeWhile Char.isDigit).reverse

/-- The canonical type table of `infer_type_size` (`type_map` in the source). -/
def typeMapLookup (s : List Char) : Option Nat :=
  if s = "UINT16".data then some 16
  else if s = "INT16".data then some 16
  else if s = "UINT".data then some 16
  else if s = "UINT32".data then some 32
  else if s = "INT32".data then some 32
  else if s = "FLOAT".data then some 32
  else none

/-- Embedding of `infer_type_size`: `none` models an absent/NaN `mbType`
cell; otherwise the label is stripped and upper-cased, looked up in the
canonical table, then the trailing digit run is used, defaulting to 32. -/
def infer_type_size (t : Option String) : Nat :=
  match t with
  | none => 32
  | some raw =>
    let s := pyUpper (pyStrip raw.data)
    match typeMapLookup s with
    | some w => w
    | none =>
      let ds := trailingDigits s
      if ds.isEmpty then 32 else digitsVal ds

/-! ## HandlerAssigner: embedding of `assign_mb_handler` -/

/-- One row as seen by `assign_mb_handler`: its `mbFunctionCode`,
`mbRegister` (an integer address) and `mbTypeSize` in bits. -/
structure MbRow where
  func : Int
  addr : Int
  size : Nat
  deriving DecidableEq, Repr

/-- The scan state of `assign_mb_handler`: `current_handler`,
`current_function`, `current_count`, and the pair
(`last_address`, `last_size`), which the source always assigns together. -/
structure AState where
  handler : Nat
  curFunc : Option Int
  count : Nat
  last : Option (Int × Nat)
  deriving DecidableEq, Repr

/-- The initial state of the scan in `assign_mb_handler`. -/
def initState : AState := ⟨0, none, 0, none⟩

/-- The `continue_same` test of `assign_mb_handler`: a current handler with a
function code exists and equals the row's, the running count stays strictly
below 124 after adding `size // 16`, and the row's address is exactly
`last_address + last_size // 16`. -/
def contSame (s : AState) (r : MbRow) : Bool :=
  match s.curFunc, s.last with
  | some f, some (la, ls) =>
    f == r.func && s.count + r.size / 16 < 124 && r.addr == la + (ls / 16 : Nat)
  | _, _ => false

/-- One iteration of the loop body of `assign_mb_handler`: possibly start a
new handler, then place the row, returning the new state and the handler id
assigned to the row. -/
def hstep (s : AState) (r : MbRow) : AState × Nat :=
  let s1 := if contSame s r then s
            else { s with handler := s.handler + 1, count := 0, curFunc := some r.func }
  let s2 := { s1 with count := s1.count + r.size / 16, last := some (r.addr, r.size) }
  (s2, s2.handler)

/-- The whole scan from a given state, pairing every row with its assigned
handler id (the `mbHandler` column written by `assign_mb_handler`). -/
def assignPairs (s : AState) : List MbRow → List (Nat × MbRow)
  | [] => []
  | r :: rs => ((hstep s r).2, r) :: assignPairs (hstep s r).1 rs

/-- Handler ids assigned by `assign_mb_handler`, row by row. -/
def assignHandlers (rows : List MbRow) : List Nat :=
  (assignPairs initState rows).map Prod.fst

/-- Rows that the scan started from state `s` assigns to handler `h`,
in scan order. -/
def hRows (s : AState) (rows : List MbRow) (h : Nat) : List MbRow :=
  (assignPairs s rows).filterMap (fun p => if p.1 = h then some p.2 else none)

/-- Rows assigned to handler `h` by `assign_mb_handler`, in scan order. -/
def handlerRows (rows : List MbRow) (h : Nat) : List MbRow :=
  hRows initState rows h

/-- Occupied width of a handler in 16-bit units, summing the floor
`size // 16` over its members exactly as the source's `current_count`
does. This is deliberately the code's measure, not the spec's
`ceil(bit_width / 16)`: the two differ on widths that are not multiples
of 16 (an 8-bit row counts as 0 here, 1 under the ceiling). -/
def handlerUnits (rows : List MbRow) (h : Nat) : Nat :=
  (handlerRows rows h).foldr (fun r a => r.size / 16 + a) 0

/-- The contiguity relation the scan enforces between a placed row and the
next row of the same handler: the next address is the previous address plus
`size // 16` of the previous row. -/
def nextOfPrev (a b : MbRow) : Prop :=
  b.addr = a.addr + (a.size / 16 : Nat)

instance : DecidableRel nextOfPrev := fun a b => by
  unfold nextOfPrev; infer_instance

/-! ## RowExpander: embedding of `expand_rows` and the defensive parsing -/

/-- Python `str.lower()` on a character list. -/
def pyLower (cs : List Char) : List Char := cs.map Char.toLower

/-- A cell value of the input table: absent (missing column or NaN), a
number (modelled as an integer; Python `int()` truncation of genuine
floats is outside the claims considered here), or a string. -/
inductive Cell where
  | absent
  | num (n : Int)
  | str (s : String)
  deriving DecidableEq, Repr

/-- Python `int(s)` on a string: surrounding whitespace is ignored, an
optional sign precedes a nonempty digit run; anything else raises, which
is modelled as `none`. -/
def pyInt (s : String) : Option Int :=
  match pyStrip s.data with
  | [] => none
  | '-' :: rest =>
    if !rest.isEmpty && rest.all Char.isDigit then some (-(digitsVal rest : Int)) else none
  | '+' :: rest =>
    if !rest.isEmpty && rest.all Char.isDigit then some (digitsVal rest) else none
  | cs =>
    if cs.all Char.isDigit then some (digitsVal cs) else none

/-- `int(row.get("multiplier", 1)) if pd.notna(...) else 1`, wrapped in
`try/except` with fallback 1: absent/NaN gives 1, an unparsable string
gives 1. -/
def parseMultiplier : Cell → Int
  | Cell.absent => 1
  | Cell.num n => n
  | Cell.str s => (pyInt s).getD 1

/-- `int(row.get("addressOffset", 0)) if pd.notna(...) else 0`, wrapped in
`try/except` with fallback 0. -/
def parseAddressOffset : Cell → Int
  | Cell.absent => 0
  | Cell.num n => n
  | Cell.str s => (pyInt s).getD 0

/-- `int(row.get("mbRegister", 0)) if pd.notna(...) else 0`: there is no
`try/except` here, so a non-numeric string raises. -/
def parseRegister : Cell → Except String Int
  | Cell.absent => Except.ok 0
  | Cell.num n => Except.ok n
  | Cell.str s =>
    match pyInt s with
    | some n => Except.ok n
    | none => Except.error "invalid literal for int() in mbRegister"

/-- One raw input row, restricted to the fields the pipeline reads:
the three numeric-like cells, the function code (an opaque comparable
token) and the `mbType` label. -/
structure RawRow where
  multiplier : Cell
  addressOffset : Cell
  register : Cell
  func : Int
  mbType : Option String
  deriving DecidableEq, Repr

/-- One expanded row as built by `expand_rows`: the originating base row
index (`__base_index`), the iteration tag (`__iteration`), the `mbRegister`
cell — overwritten with a number in the `multiplier > 1` branch, kept as
the original cell otherwise — and the untouched remaining fields. -/
structure XRow where
  base : Nat
  iteration : Nat
  register : Cell
  raw : RawRow
  deriving DecidableEq, Repr

/-- The per-row body of the loop in `expand_rows`. -/
def expandRow (b : Nat) (r : RawRow) : Except String (List XRow) :=
  let m := parseMultiplier r.multiplier
  let off := parseAddressOffset r.addressOffset
  match parseRegister r.register with
  | Except.error e => Except.error e
  | Except.ok reg =>
    Except.ok
      (if 1 < m then
        (List.range m.toNat).map (fun i => ⟨b, i, Cell.num (reg + i * off), r⟩)
      else [⟨b, 0, r.register, r⟩])

/-- The loop of `expand_rows` over the rows, with `__base_index` counting
from `b`; the first parse error aborts the whole expansion. -/
def expandFrom (b : Nat) : List RawRow → Except String (List XRow)
  | [] => Except.ok []
  | r :: rs =>
    match expandRow b r, expandFrom (b + 1) rs with
    | Except.error e, _ => Except.error e
    | Except.ok _, Except.error e => Except.error e
    | Except.ok xs, Except.ok rest => Except.ok (xs ++ rest)

/-- Embedding of `expand_rows` applied after `df["__base_index"] = range(len(df))`. -/
def expand_rows (rows : List RawRow) : Except String (List XRow) :=
  expandFrom 0 rows

/-- Whether an `Except` value is a success. -/
def exceptOk : Except String (List XRow) → Bool
  | Except.ok _ => true
  | Except.error _ => false

/-! ## The pipeline of `process` feeding the OffsetProjector -/

/-- An expanded row after `mbTypeSize` inference and
`mbRegister.astype(int)`. -/
structure ARow where
  base : Nat
  iteration : Nat
  addr : Int
  func : Int
  size : Nat
  deriving DecidableEq, Repr

/-- `astype(int)` on one register cell: NaN cannot be converted, integral
strings are parsed, numbers pass through. -/
def astypeInt : Cell → Except String Int
  | Cell.absent => Except.error "Cannot convert non-finite values to integer"
  | Cell.num n => Except.ok n
  | Cell.str s =>
    match pyInt s with
    | some n => Except.ok n
    | none => Except.error "invalid literal for int() in astype"

/-- Size inference and address conversion for one expanded row. -/
def toARow (x : XRow) : Except String ARow :=
  match astypeInt x.register with
  | Except.error e => Except.error e
  | Except.ok a => Except.ok ⟨x.base, x.iteration, a, x.raw.func, infer_type_size x.raw.mbType⟩

/-- The sort order of `sort_values(by=["mbFunctionCode", "mbRegister"])`. -/
def rowLe (a b : ARow) : Prop :=
  a.func < b.func ∨ (a.func = b.func ∧ a.addr ≤ b.addr)

instance : DecidableRel rowLe := fun a b => by
  unfold rowLe; infer_instance

/-- The sorted expanded table (a deterministic stable sort on the key
(function code, register)). -/
def sortExpanded (l : List ARow) : List ARow := l.insertionSort rowLe

/-- The projection of an `ARow` onto the fields `assign_mb_handler` reads. -/
def toMb (e : ARow) : MbRow := ⟨e.func, e.addr, e.size⟩

/-- Size inference and `astype(int)` over the whole expanded table, the
first bad register aborting. -/
def toARows : List XRow → Except String (List ARow)
  | [] => Except.ok []
  | x :: xs =>
    match toARow x, toARows xs with
    | Except.error e, _ => Except.error e
    | Except.ok _, Except.error e => Except.error e
    | Except.ok a, Except.ok rest => Except.ok (a :: rest)

/-- Expansion, size inference, register conversion, sorting and handler
assignment: the `process` pipeline up to and including
`assign_mb_handler`, returning each sorted expanded row with its assigned
handler id. -/
def pipelineAssigned (rows : List RawRow) : Except String (List (Nat × ARow)) :=
  match expand_rows rows with
  | Except.error e => Except.error e
  | Except.ok xs =>
    match toARows xs with
    | Except.error e => Except.error e
    | Except.ok as =>
      let sorted := sortExpanded as
      Except.ok ((assignHandlers (sorted.map toMb)).zip sorted)

/-- The handler id of the expanded row of base index `b` at iteration `i`:
`expanded_df[expanded_df["__iteration"] == i].set_index("__base_index")["mbHandler"]`
looked up at `b`. -/
def handlerAt (asg : List (Nat × ARow)) (b i : Nat) : Option Nat :=
  (asg.find? (fun q => decide (q.2.base = b ∧ q.2.iteration = i))).map Prod.fst

/-- The `mbHandler` value projected back onto base row `b`. -/
def projHandler (asg : List (Nat × ARow)) (b : Nat) : Option Nat :=
  handlerAt asg b 0

/-- The `mbHandlerOffset` value projected back onto base row `b`:
`iter1.mbHandler - iter0.mbHandler` where defined, `fillna(0)` otherwise. -/
def projOffset (asg : List (Nat × ARow)) (b : Nat) : Int :=
  match handlerAt asg b 1, handlerAt asg b 0 with
  | some h1, some h0 => (h1 : Int) - (h0 : Int)
  | _, _ => 0

/-- The per-base projection table: one `(mbHandler, mbHandlerOffset)` entry
per base row. -/
def processProjection (rows : List RawRow) : Except String (List (Option Nat × Int)) :=
  match pipelineAssigned rows with
  | Except.error e => Except.error e
  | Except.ok asg =>
    Except.ok ((List.range rows.length).map (fun b => (projHandler asg b, projOffset asg b)))

/-! ## RecordSerializer: embedding of the JSON record loop of `process` -/

/-- A value of the serialized output record. `vFloat` marks the
`float(val)` coercion applied to the fields of `float_fields` (the payload
is kept integral: the claims considered here involve no fractional
values). -/
inductive PyVal where
  | vInt (n : Int)
  | vFloat (n : Int)
  | vBool (b : Bool)
  | vStr (s : String)
  deriving DecidableEq, Repr

/-- The `float_fields` set of `process`. -/
def floatFields : List String :=
  ["mqttLowerLimit", "mqttUpperLimit", "mbScaling", "mbOffset", "mqttScaling", "mqttOffset"]

/-- Python `" ".join(str(value).split())` of `normalize_mqtt_name`,
restricted to string values. -/
def normalize_mqtt_name (s : String) : String :=
  String.mk (List.intercalate [' ']
    ((s.data.splitOnP Char.isWhitespace).filter (fun w => !w.isEmpty)))

/-- The body of the serialization loop of `process` for one column: `none`
means the field is dropped from the record (NaN or empty-string value);
otherwise the value is coerced following the `mbUsed`, `mqttName`,
`float_fields` and default rules, in the order of the source. -/
def serializeField (col : String) (val : Cell) : Option PyVal :=
  match val with
  | Cell.absent => none
  | Cell.str s =>
    if pyStrip s.data = [] then none
    else if col = "mbUsed" then
      let v := pyLower (pyStrip s.data)
      if v = "true".data then some (PyVal.vBool true)
      else if v = "false".data then some (PyVal.vBool false)
      else
        match pyInt (String.mk v) with
        | some n => some (PyVal.vBool (n != 0))
        | none =>
          -- the `try int(v)` failed: control falls through to the generic
          -- branches, which store the string unchanged
          some (PyVal.vStr s)
    else if col = "mqttName" then some (PyVal.vStr (normalize_mqtt_name s))
    else some (PyVal.vStr s)
  | Cell.num n =>
    if col = "mbUsed" then some (PyVal.vBool (n != 0))
    else if col = "mqttName" then some (PyVal.vStr (toString n))
    else if col ∈ floatFields then some (PyVal.vFloat n)
    else some (PyVal.vInt n)

/-- The serialization loop of `process` over the columns of one enriched
row. -/
def serializeRecord (row : List (String × Cell)) : List (String × PyVal) :=
  row.filterMap (fun p => (serializeField p.1 p.2).map (fun v => (p.1, v)))

/-- The enriched output row of `process`: the computed columns
`mbHandler`, `mbHandlerOffset`, `mbIdx`, `mbTypeSize` are appended, then
the `mqttPayload` and `__base_index` columns are dropped. -/
def enrichedRow (row : List (String × Cell)) (h off idx ts : Cell) : List (String × Cell) :=
  ((row ++ [("mbHandler", h), ("mbHandlerOffset", off), ("mbIdx", idx), ("mbTypeSize", ts)]).filter
      (fun p => p.1 ≠ "mqttPayload")).filter (fun p => p.1 ≠ "__base_index")

/-! ## Helper lemmas -/

theorem takeWhile_append_of_all {p : Char → Bool} (l t : List Char) (h : ∀ c ∈ l, p c) :
    (l ++ t).takeWhile p = l ++ t.takeWhile p := by
  induction l with
  | nil => simp
  | cons c cs ih =>
    have hc : p c = true := h c (by simp)
    simp only [List.cons_append, List.takeWhile_cons, hc, if_true]
    rw [ih (fun x hx => h x (by simp [hx]))]

theorem takeWhile_eq_nil_of_head {p : Char → Bool} (l : List Char)
    (h : ∀ c, l.head? = some c → p c = false) : l.takeWhile p = [] := by
  cases l with
  | nil => rfl
  | cons c cs =>
    have hc : p c = false := h c rfl
    simp [List.takeWhile_cons, hc]

theorem trailingDigits_of_decomp (p d : List Char) (hall : ∀ c ∈ d, c.isDigit)
    (hp : ∀ c, p.getLast? = some c → c.isDigit = false) :
    trailingDigits (p ++ d) = d := by
  unfold trailingDigits
  rw [List.reverse_append]
  rw [takeWhile_append_of_all d.reverse p.reverse
    (fun c hc => hall c (List.mem_reverse.mp hc))]
  rw [takeWhile_eq_nil_of_head p.reverse
    (fun c hc => hp c (by rwa [List.head?_reverse] at hc))]
  simp

theorem trailingDigits_eq_nil (cs : List Char)
    (h : ∀ c, cs.getLast? = some c → c.isDigit = false) : trailingDigits cs = [] := by
  unfold trailingDigits
  rw [takeWhile_eq_nil_of_head cs.reverse
    (fun c hc => h c (by rwa [List.head?_reverse] at hc))]
  rfl

/-! ## Claim C6: TypeWidthResolver -/

/-- C6 (counterexample): the resolver does not always return a positive
integer: the unrecognized label "X0" ends in the digit run "0", whose
numeric value is 0. -/
theorem infer_type_size_not_positive :
    infer_type_size (some "X0") = 0 ∧ ¬ 0 < infer_type_size (some "X0") := by decide

/-- C6 (amended): for every input (any label or an absent value) the
resolver returns a natural number without failing; an absent label yields
32, an unrecognized label ending in a run of digits yields the numeric
value of that suffix as the bit width — which is 0, not positive, when the
suffix denotes zero — and any other unrecognized label yields 32. -/
theorem infer_type_size_spec :
    infer_type_size none = 32 ∧
    (∀ s : String, typeMapLookup (pyUpper (pyStrip s.data)) = none →
      (∀ c, (pyUpper (pyStrip s.data)).getLast? = some c → c.isDigit = false) →
      infer_type_size (some s) = 32) ∧
    (∀ (s : String) (p d : List Char), pyUpper (pyStrip s.data) = p ++ d →
      d ≠ [] → (∀ c ∈ d, c.isDigit) →
      (∀ c, p.getLast? = some c → c.isDigit = false) →
      typeMapLookup (pyUpper (pyStrip s.data)) = none →
      infer_type_size (some s) = digitsVal d) := by
  refine ⟨rfl, ?_, ?_⟩
  · intro s hmap hlast
    show (match typeMapLookup (pyUpper (pyStrip s.data)) with
          | some w => w
          | none =>
            let ds := trailingDigits (pyUpper (pyStrip s.data))
            if ds.isEmpty then 32 else digitsVal ds) = 32
    rw [hmap, trailingDigits_eq_nil _ hlast]
    rfl
  · intro s p d hdec hd hall hp hmap
    show (match typeMapLookup (pyUpper (pyStrip s.data)) with
          | some w => w
          | none =>
            let ds := trailingDigits (pyUpper (pyStrip s.data))
            if ds.isEmpty then 32 else digitsVal ds) = digitsVal d
    rw [hmap, hdec, trailingDigits_of_decomp p d hall hp]
    simp [List.isEmpty_iff, hd]

/-- C6 (witness): the amended theorem applied to the unrecognized labels
"custom48" (digit suffix) and "BOOL" (no digit suffix). -/
theorem infer_type_size_spec_witness :
    infer_type_size (some "custom48") = digitsVal "48".data ∧
    infer_type_size (some "BOOL") = 32 := by
  constructor
  · exact infer_type_size_spec.2.2 "custom48" "CUSTOM".data "48".data (by decide)
      (by decide) (by decide) (by decide) (by decide)
  · exact infer_type_size_spec.2.1 "BOOL" (by decide) (by decide)

/-! ## Claim C5: defensive parsing in the expansion stage -/

theorem expandRow_ok_iff (b : Nat) (r : RawRow) :
    exceptOk (expandRow b r) = true ↔ ∃ n, parseRegister r.register = Except.ok n := by
  unfold expandRow
  cases hreg : parseRegister r.register with
  | error e => simp [exceptOk, hreg]
  | ok n => simp [exceptOk, hreg]

theorem expandFrom_ok_iff (rows : List RawRow) : ∀ b : Nat,
    exceptOk (expandFrom b rows) = true ↔
      ∀ r ∈ rows, ∃ n, parseRegister r.register = Except.ok n := by
  induction rows with
  | nil => intro b; simp [expandFrom, exceptOk]
  | cons r rs ih =>
    intro b
    show exceptOk (match expandRow b r, expandFrom (b + 1) rs with
      | Except.error e, _ => Except.error e
      | Except.ok _, Except.error e => Except.error e
      | Except.ok xs, Except.ok rest => Except.ok (xs ++ rest)) = true ↔ _
    cases hx : expandRow b r with
    | error e =>
      have : ¬ ∃ n, parseRegister r.register = Except.ok n := by
        rw [← expandRow_ok_iff b r, hx]; simp [exceptOk]
      simp [exceptOk, this]
    | ok xs =>
      have hr : ∃ n, parseRegister r.register = Except.ok n := by
        rw [← expandRow_ok_iff b r, hx]; simp [exceptOk]
      cases hrest : expandFrom (b + 1) rs with
      | error e =>
        have := (ih (b + 1)).symm
        rw [hrest] at this
        simp [exceptOk] at this
        simp [exceptOk, hr]
        exact this
      | ok rest =>
        have := ih (b + 1)
        rw [hrest] at this
        simp [exceptOk] at this
        simp [exceptOk, hr, this]
        exact this

/-- C5 (counterexample): a row whose register cell holds the non-numeric
string "abc" makes the expansion stage raise instead of falling back to
the default 0 (there is no try/except around `int(row.get("mbRegister", 0))`). -/
theorem expand_rows_raises_on_bad_register :
    exceptOk (expand_rows [⟨Cell.absent, Cell.absent, Cell.str "abc", 3, none⟩]) = false := by
  decide

/-- C5 (amended): a malformed (non-numeric string or absent) multiplier is
replaced by the default 1 and a malformed addressOffset by 0 without
raising; an absent (NaN) register parses to the default 0, but a register
holding a non-numeric string raises, and the expansion stage completes
exactly when no row's register cell is a non-numeric string. -/
theorem expand_rows_defensive (rows : List RawRow) (s : String) :
    (pyInt s = none →
      parseMultiplier (Cell.str s) = 1 ∧ parseAddressOffset (Cell.str s) = 0) ∧
    parseMultiplier Cell.absent = 1 ∧
    parseAddressOffset Cell.absent = 0 ∧
    parseRegister Cell.absent = Except.ok 0 ∧
    (exceptOk (expand_rows rows) = true ↔
      ∀ r ∈ rows, ∃ n, parseRegister r.register = Except.ok n) := by
  refine ⟨?_, rfl, rfl, rfl, expandFrom_ok_iff rows 0⟩
  intro h
  constructor
  · show (pyInt s).getD 1 = 1
    rw [h]; rfl
  · show (pyInt s).getD 0 = 0
    rw [h]; rfl

/-- C5 (witness): the amended theorem applied to a one-row table whose
multiplier and addressOffset cells hold the unparsable string "zz" and
whose register is a plain number. -/
theorem expand_rows_defensive_witness :
    (parseMultiplier (Cell.str "zz") = 1 ∧ parseAddressOffset (Cell.str "zz") = 0) ∧
    (exceptOk (expand_rows [⟨Cell.str "zz", Cell.str "zz", Cell.num 5, 3, none⟩]) = true ↔
      ∀ r ∈ [(⟨Cell.str "zz", Cell.str "zz", Cell.num 5, 3, none⟩ : RawRow)],
        ∃ n, parseRegister r.register = Except.ok n) := by
  have h := expand_rows_defensive [⟨Cell.str "zz", Cell.str "zz", Cell.num 5, 3, none⟩] "zz"
  exact ⟨h.1 (by decide), h.2.2.2.2⟩

/-! ## Claim C7: RowExpander expansion shape -/

/-- C7: with parsed multiplier m > 1 a variable yields exactly m expanded
rows at iterations 0..m-1 whose register addresses are
`base.register + iteration * addressOffset`; with m ≤ 1 it yields exactly
one expanded row at iteration 0 with the register cell unchanged. -/
theorem expandRow_spec (b : Nat) (r : RawRow) (m off reg : Int)
    (hm : parseMultiplier r.multiplier = m)
    (hoff : parseAddressOffset r.addressOffset = off)
    (hreg : parseRegister r.register = Except.ok reg) :
    (1 < m → ∃ xs, expandRow b r = Except.ok xs ∧ xs.length = m.toNat ∧
      ∀ i : Fin xs.length, (xs.get i).iteration = i.val ∧
        (xs.get i).register = Cell.num (reg + i.val * off) ∧
        (xs.get i).base = b ∧ (xs.get i).raw = r) ∧
    (m ≤ 1 → expandRow b r = Except.ok [⟨b, 0, r.register, r⟩]) := by
  unfold expandRow
  rw [hm, hoff, hreg]
  have hred : (let m' := m;
      let off' := off;
      match Except.ok (ε := String) reg with
      | Except.error e => Except.error e
      | Except.ok reg' =>
        Except.ok
          (if 1 < m' then
            (List.range m'.toNat).map
              (fun i => (⟨b, i, Cell.num (reg' + i * off'), r⟩ : XRow))
          else [⟨b, 0, r.register, r⟩])) =
      Except.ok
        (if 1 < m then
          (List.range m.toNat).map
            (fun i => (⟨b, i, Cell.num (reg + i * off), r⟩ : XRow))
        else [⟨b, 0, r.register, r⟩]) := rfl
  constructor
  · intro h1
    refine ⟨(List.range m.toNat).map (fun i => ⟨b, i, Cell.num (reg + i * off), r⟩),
      by rw [hred, if_pos h1], by simp, ?_⟩
    intro i
    have hi := i.isLt
    simp only [List.length_map, List.length_range] at hi
    simp [List.getElem_map]
  · intro h1
    rw [hred, if_neg (not_lt.mpr h1)]

/-- C7 (witness): the variable with multiplier 3, addressOffset 5 and
register 100 expands to three rows at addresses 100, 105, 110. -/
def varC7 : RawRow := ⟨Cell.num 3, Cell.num 5, Cell.num 100, 3, some "UINT16"⟩

theorem expandRow_spec_witness :
    ∃ xs, expandRow 0 varC7 = Except.ok xs ∧ xs.length = (3 : Int).toNat ∧
      ∀ i : Fin xs.length, (xs.get i).iteration = i.val ∧
        (xs.get i).register = Cell.num (100 + i.val * 5) ∧
        (xs.get i).base = 0 ∧ (xs.get i).raw = varC7 :=
  (expandRow_spec 0 varC7 3 5 100 rfl rfl rfl).1 (by decide)

/-! ## Claim C9: mbUsed coercion in the RecordSerializer -/

/-- C9 (counterexample): the present, non-empty mbUsed value "yes" is not
coerced to a boolean: `int("yes")` raises, the handler falls through, and
the string is stored unchanged in the record. -/
theorem serialize_mbUsed_not_boolean :
    serializeField "mbUsed" (Cell.str "yes") = some (PyVal.vStr "yes") ∧
    serializeField "mbUsed" (Cell.str "yes") ≠ some (PyVal.vBool true) ∧
    serializeField "mbUsed" (Cell.str "yes") ≠ some (PyVal.vBool false) := by decide

/-- C9 (amended): for a present non-empty mbUsed value, the
case-insensitive strings "true" and "false" map to the booleans true and
false, a numeric value or a string parseable as an integer maps to the
boolean "value is non-zero", and a non-empty string that parses as neither
is stored unchanged as a string (not a boolean). -/
theorem serialize_mbUsed_spec (s : String) (n : Int) :
    serializeField "mbUsed" (Cell.num n) = some (PyVal.vBool (n != 0)) ∧
    (pyStrip s.data ≠ [] → pyLower (pyStrip s.data) = "true".data →
      serializeField "mbUsed" (Cell.str s) = some (PyVal.vBool true)) ∧
    (pyStrip s.data ≠ [] → pyLower (pyStrip s.data) = "false".data →
      serializeField "mbUsed" (Cell.str s) = some (PyVal.vBool false)) ∧
    (∀ m : Int, pyStrip s.data ≠ [] → pyLower (pyStrip s.data) ≠ "true".data →
      pyLower (pyStrip s.data) ≠ "false".data →
      pyInt (String.mk (pyLower (pyStrip s.data))) = some m →
      serializeField "mbUsed" (Cell.str s) = some (PyVal.vBool (m != 0))) ∧
    (pyStrip s.data ≠ [] → pyLower (pyStrip s.data) ≠ "true".data →
      pyLower (pyStrip s.data) ≠ "false".data →
      pyInt (String.mk (pyLower (pyStrip s.data))) = none →
      serializeField "mbUsed" (Cell.str s) = some (PyVal.vStr s)) := by
  refine ⟨by simp [serializeField], ?_, ?_, ?_, ?_⟩
  · intro hne htrue
    simp [serializeField, hne, htrue]
  · intro hne hfalse
    simp [serializeField, hne, hfalse]
  · intro m hne htrue hfalse hint
    simp [serializeField, hne, htrue, hfalse, hint]
  · intro hne htrue hfalse hint
    simp [serializeField, hne, htrue, hfalse, hint]

/-- C9 (witness): the amended theorem applied to the integer-parseable
string "1" and the number 2. -/
theorem serialize_mbUsed_spec_witness :
    serializeField "mbUsed" (Cell.str "1") = some (PyVal.vBool ((1 : Int) != 0)) ∧
    serializeField "mbUsed" (Cell.num 2) = some (PyVal.vBool ((2 : Int) != 0)) :=
  ⟨(serialize_mbUsed_spec "1" 2).2.2.2.1 1 (by decide) (by decide) (by decide) (by decide),
   (serialize_mbUsed_spec "1" 2).1⟩

/-! ## Claim C10: no mqttPayload in the enriched output -/

theorem serializeRecord_keys (row : List (String × Cell)) :
    ∀ c v, (c, v) ∈ serializeRecord row → ∃ w, (c, w) ∈ row := by
  intro c v h
  unfold serializeRecord at h
  obtain ⟨p, hp, heq⟩ := List.mem_filterMap.mp h
  obtain ⟨u, _, heq2⟩ := Option.map_eq_some'.mp heq
  have hc : p.1 = c := congrArg Prod.fst heq2
  exact ⟨p.2, by rw [← hc]; exact hp⟩

/-- C10: the enriched output row never contains a mqttPayload column, even
when the input row contains one, so no serialized record contains a
mqttPayload field. -/
theorem no_mqttPayload (row : List (String × Cell)) (hc offc idxc tsc : Cell) :
    "mqttPayload" ∉ (enrichedRow row hc offc idxc tsc).map Prod.fst ∧
    "mqttPayload" ∉ (serializeRecord (enrichedRow row hc offc idxc tsc)).map Prod.fst := by
  have hkey : ∀ p ∈ enrichedRow row hc offc idxc tsc, p.1 ≠ "mqttPayload" := by
    intro p hp
    exact (List.mem_filter.mp (List.mem_filter.mp hp).1).2 |> fun hb => by
      simpa using hb
  constructor
  · intro hmem
    obtain ⟨p, hp, hfst⟩ := List.mem_map.mp hmem
    exact hkey p hp hfst
  · intro hmem
    obtain ⟨p, hp, hfst⟩ := List.mem_map.mp hmem
    obtain ⟨w, hw⟩ := serializeRecord_keys _ p.1 p.2 (by rwa [Prod.mk.eta])
    exact hkey ("mqttPayload", w) (by rwa [hfst] at hw) rfl

/-! ## Scan lemmas for `assign_mb_handler` -/

theorem contSame_iff (s : AState) (r : MbRow) :
    contSame s r = true ↔ ∃ la ls, s.curFunc = some r.func ∧ s.last = some (la, ls) ∧
      s.count + r.size / 16 < 124 ∧ r.addr = la + (ls / 16 : Nat) := by
  unfold contSame
  rcases hf : s.curFunc with _ | f
  · simp
  · rcases hl : s.last with _ | ⟨la, ls⟩
    · simp
    · constructor
      · intro hb
        simp only [Bool.and_eq_true, beq_iff_eq, decide_eq_true_eq] at hb
        obtain ⟨⟨hfe, hcap⟩, haddr⟩ := hb
        exact ⟨la, ls, by rw [hfe], rfl, hcap, haddr⟩
      · rintro ⟨la', ls', hcf, hll, hcap, haddr⟩
        obtain rfl : f = r.func := Option.some.inj hcf
        have h2 := Option.some.inj hll
        obtain ⟨rfl, rfl⟩ : la = la' ∧ ls = ls' :=
          ⟨congrArg Prod.fst h2, congrArg Prod.snd h2⟩
        simp [Bool.and_eq_true, beq_iff_eq, decide_eq_true_eq, hcap, haddr]

theorem contSame_none (s : AState) (r : MbRow) (h : s.curFunc = none) :
    contSame s r = false := by
  unfold contSame
  rw [h]

theorem hstep_cont (s : AState) (r : MbRow) (h : contSame s r = true) :
    hstep s r =
      (⟨s.handler, s.curFunc, s.count + r.size / 16, some (r.addr, r.size)⟩, s.handler) := by
  simp [hstep, h]

theorem hstep_new (s : AState) (r : MbRow) (h : contSame s r = false) :
    hstep s r = (⟨s.handler + 1, some r.func, r.size / 16, some (r.addr, r.size)⟩,
      s.handler + 1) := by
  simp [hstep, h]

theorem hstep_fst_handler (s : AState) (r : MbRow) :
    (hstep s r).1.handler = (hstep s r).2 := by
  unfold hstep
  cases contSame s r <;> rfl

theorem hstep_handler_ge (s : AState) (r : MbRow) : s.handler ≤ (hstep s r).2 := by
  unfold hstep
  cases contSame s r <;> simp

theorem mem_assignPairs_handler_ge (rows : List MbRow) :
    ∀ (s : AState) (p : Nat × MbRow), p ∈ assignPairs s rows → s.handler ≤ p.1 := by
  induction rows with
  | nil => intro s p hp; simp [assignPairs] at hp
  | cons r rs ih =>
    intro s p hp
    rcases (by simpa [assignPairs] using hp :
        p = ((hstep s r).2, r) ∨ p ∈ assignPairs (hstep s r).1 rs) with h | h
    · rw [h]
      exact hstep_handler_ge s r
    · calc s.handler ≤ (hstep s r).2 := hstep_handler_ge s r
        _ = (hstep s r).1.handler := (hstep_fst_handler s r).symm
        _ ≤ p.1 := ih (hstep s r).1 p h

theorem hRows_nil (s : AState) (h : Nat) : hRows s [] h = [] := rfl

theorem hRows_cons (s : AState) (r : MbRow) (rs : List MbRow) (h : Nat) :
    hRows s (r :: rs) h =
      if (hstep s r).2 = h then r :: hRows (hstep s r).1 rs h
      else hRows (hstep s r).1 rs h := by
  by_cases hc : (hstep s r).2 = h <;>
    simp [hRows, assignPairs, List.filterMap_cons, hc]

theorem hRows_eq_nil_of_lt (rows : List MbRow) (s : AState) (h : Nat)
    (hlt : h < s.handler) : hRows s rows h = [] := by
  unfold hRows
  rw [List.filterMap_eq_nil_iff]
  intro p hp
  have hge := mem_assignPairs_handler_ge rows s p hp
  rw [if_neg (by omega)]

theorem hRows_init_zero (rows : List MbRow) : hRows initState rows 0 = [] := by
  cases rows with
  | nil => rfl
  | cons r rs =>
    rw [hRows_cons]
    have hc : contSame initState r = false := contSame_none _ r rfl
    rw [hstep_new _ _ hc]
    rw [if_neg (by simp [initState])]
    exact hRows_eq_nil_of_lt rs _ 0 (by simp [initState])

theorem hRows_cons_cont (s : AState) (r : MbRow) (rs : List MbRow) (h : Nat)
    (hc : contSame s r = true) :
    hRows s (r :: rs) h =
      if s.handler = h then
        r :: hRows ⟨s.handler, s.curFunc, s.count + r.size / 16, some (r.addr, r.size)⟩ rs h
      else hRows ⟨s.handler, s.curFunc, s.count + r.size / 16, some (r.addr, r.size)⟩ rs h := by
  rw [hRows_cons, hstep_cont s r hc]

theorem hRows_cons_new (s : AState) (r : MbRow) (rs : List MbRow) (h : Nat)
    (hc : contSame s r = false) :
    hRows s (r :: rs) h =
      if s.handler + 1 = h then
        r :: hRows ⟨s.handler + 1, some r.func, r.size / 16, some (r.addr, r.size)⟩ rs h
      else hRows ⟨s.handler + 1, some r.func, r.size / 16, some (r.addr, r.size)⟩ rs h := by
  rw [hRows_cons, hstep_new s r hc]

/-- The running count invariant of the scan: if any later row still joins
the current handler, the current count plus the units of those rows stays
strictly below the 124 capacity (that is, at most 123). -/
theorem hRows_cur_count (rows : List MbRow) : ∀ s : AState,
    hRows s rows s.handler ≠ [] →
    s.count + (hRows s rows s.handler).foldr (fun r a => r.size / 16 + a) 0 ≤ 123 := by
  induction rows with
  | nil => intro s hne; exact absurd rfl hne
  | cons r rs ih =>
    intro s hne
    by_cases hc : contSame s r = true
    · obtain ⟨la, ls, _, _, hcap, _⟩ := (contSame_iff s r).mp hc
      rw [hRows_cons_cont s r rs s.handler hc, if_pos rfl] at hne ⊢
      by_cases h2 :
          hRows ⟨s.handler, s.curFunc, s.count + r.size / 16, some (r.addr, r.size)⟩
            rs s.handler = []
      · rw [h2]
        simp only [List.foldr_cons, List.foldr_nil]
        omega
      · have hih : s.count + r.size / 16 +
            (hRows ⟨s.handler, s.curFunc, s.count + r.size / 16, some (r.addr, r.size)⟩
              rs s.handler).foldr (fun r a => r.size / 16 + a) 0 ≤ 123 :=
          ih ⟨s.handler, s.curFunc, s.count + r.size / 16, some (r.addr, r.size)⟩ h2
        simp only [List.foldr_cons]
        omega
    · have hc' : contSame s r = false := by simpa using hc
      rw [hRows_cons_new s r rs s.handler hc', if_neg (by omega)] at hne
      exact absurd (hRows_eq_nil_of_lt rs _ s.handler (by simp)) hne

/-- A handler that a fresh scan opens later than the starting state, once it
holds at least two rows, occupies at most 123 width units. -/
theorem hRows_units_le (rows : List MbRow) : ∀ (s : AState) (h : Nat), h ≠ s.handler →
    2 ≤ (hRows s rows h).length →
    (hRows s rows h).foldr (fun r a => r.size / 16 + a) 0 ≤ 123 := by
  induction rows with
  | nil => intro s h _ hlen; simp [hRows_nil] at hlen
  | cons r rs ih =>
    intro s h hne hlen
    by_cases hc : contSame s r = true
    · rw [hRows_cons_cont s r rs h hc, if_neg (fun he => hne he.symm)] at hlen ⊢
      exact ih _ h hne hlen
    · have hc' : contSame s r = false := by simpa using hc
      by_cases hh : s.handler + 1 = h
      · rw [hRows_cons_new s r rs h hc', if_pos hh] at hlen ⊢
        have hrest :
            hRows ⟨s.handler + 1, some r.func, r.size / 16, some (r.addr, r.size)⟩ rs h ≠ [] := by
          intro h0
          rw [h0] at hlen
          simp at hlen
        have hrest2 :
            hRows ⟨s.handler + 1, some r.func, r.size / 16, some (r.addr, r.size)⟩ rs
              (s.handler + 1) ≠ [] := by
          nth_rewrite 2 [hh]
          exact hrest
        have hcur2 : r.size / 16 +
            (hRows ⟨s.handler + 1, some r.func, r.size / 16, some (r.addr, r.size)⟩ rs
              (s.handler + 1)).foldr (fun r a => r.size / 16 + a) 0 ≤ 123 :=
          hRows_cur_count rs
            ⟨s.handler + 1, some r.func, r.size / 16, some (r.addr, r.size)⟩ hrest2
        have hcur3 : r.size / 16 +
            (hRows ⟨s.handler + 1, some r.func, r.size / 16, some (r.addr, r.size)⟩ rs
              h).foldr (fun r a => r.size / 16 + a) 0 ≤ 123 := by
          rw [← hh]
          exact hcur2
        simpa only [List.foldr_cons] using hcur3
      · rw [hRows_cons_new s r rs h hc', if_neg hh] at hlen ⊢
        exact ih _ h (fun he => hh he.symm) hlen

/-! ## Claim C2: handler capacity -/

/-- The width-unit measure of the spec's invariant, from its words:
`width_units = ceil(bit_width / 16)`. The code's `current_count` instead
adds the floor `mbTypeSize // 16` (see `handlerUnits`); the two agree on
widths that are multiples of 16 and differ on sub-16-bit remainders. -/
def specWidthUnits (n : Nat) : Nat := (n + 15) / 16

/-- Occupied width of a handler measured with the spec's ceiling units. -/
def handlerCeilUnits (rows : List MbRow) (h : Nat) : Nat :=
  (handlerRows rows h).foldr (fun r a => specWidthUnits r.size + a) 0

/-- 130 contiguous 8-bit rows of one function code: each contributes
`8 // 16 = 0` to the running count and steps the expected address by 0,
so the scan packs all of them into handler 1. -/
def rows130 : List MbRow := List.replicate 130 ⟨3, 0, 8⟩

set_option maxRecDepth 40000 in
/-- C2 (counterexample): the claimed bound `sum of ceil(width/16) ≤ 124`
fails in two independent ways. A single row of width 2000 bits (as type
label "STRING2000" would produce) opens a handler of 125 units — under the
ceiling and the floor measure alike, since 2000 is a multiple of 16 —
because the first row of a handler is placed without any capacity check.
And 130 contiguous 8-bit rows all pack into one handler whose ceiling-unit
sum is 130, because the code's running count grows by the floor
`8 // 16 = 0` per row; so even among handlers with many rows the bound
only holds for the floor-measured occupied width the code tracks, not for
the spec's ceiling units. -/
theorem handler_capacity_counterexample :
    (assignHandlers [⟨3, 0, 2000⟩] = [1] ∧
      handlerCeilUnits [⟨3, 0, 2000⟩] 1 = 125 ∧
      ¬ handlerCeilUnits [⟨3, 0, 2000⟩] 1 ≤ 124) ∧
    ((handlerRows rows130 1).length = 130 ∧
      handlerCeilUnits rows130 1 = 130 ∧
      ¬ handlerCeilUnits rows130 1 ≤ 124) := by decide

/-- C2 (amended): for every input row set and every handler holding at
least two rows, the sum of the code's floor units `size // 16` over the
rows assigned to it is at most 124 (indeed at most 123, because
continuation requires the count to stay strictly below 124). Both changes
are forced by the counterexample: a single-row handler carries its sole
row's width unchecked, which can exceed 124 even in floor units; and the
occupied width must be measured in floor units, because a multi-row
handler of sub-16-bit rows can exceed any bound in ceiling units. -/
theorem handler_capacity (rows : List MbRow) (h : Nat)
    (hlen : 2 ≤ (handlerRows rows h).length) : handlerUnits rows h ≤ 124 := by
  have h123 : handlerUnits rows h ≤ 123 := by
    unfold handlerUnits handlerRows
    unfold handlerRows at hlen
    by_cases h0 : h = 0
    · subst h0
      rw [hRows_init_zero] at hlen
      simp at hlen
    · exact hRows_units_le rows initState h (show h ≠ 0 from h0) hlen
  omega

/-- C2 (witness): two contiguous 16-bit rows of function code 3 form
handler 1, which holds two rows and respects the capacity bound. -/
theorem handler_capacity_witness :
    2 ≤ (handlerRows [(⟨3, 0, 16⟩ : MbRow), ⟨3, 1, 16⟩] 1).length ∧
    handlerUnits [(⟨3, 0, 16⟩ : MbRow), ⟨3, 1, 16⟩] 1 ≤ 124 :=
  ⟨by decide, handler_capacity _ 1 (by decide)⟩

/-! ## Claim C3: handler contiguity -/

theorem chain_of_head_eq (a a' : MbRow) (haddr : a.addr = a'.addr) (hsize : a.size = a'.size)
    {l : List MbRow} (h : List.Chain nextOfPrev a' l) : List.Chain nextOfPrev a l := by
  cases h with
  | nil => exact List.Chain.nil
  | cons hrel hch =>
    refine List.Chain.cons ?_ hch
    unfold nextOfPrev at *
    rw [haddr, hsize]
    exact hrel

/-- Within the handler the scan is currently filling, every next member is
contiguous with the last placed (address, size) recorded in the state. -/
theorem chain_cur (rows : List MbRow) : ∀ (s : AState) (la : Int) (ls : Nat),
    s.last = some (la, ls) →
    List.Chain nextOfPrev ⟨0, la, ls⟩ (hRows s rows s.handler) := by
  induction rows with
  | nil => intro s la ls _; exact List.Chain.nil
  | cons r rs ih =>
    intro s la ls hlast
    by_cases hc : contSame s r = true
    · obtain ⟨la', ls', hcf, hl', hcap, haddr⟩ := (contSame_iff s r).mp hc
      rw [hlast] at hl'
      have h2 := Option.some.inj hl'
      obtain ⟨rfl, rfl⟩ : la = la' ∧ ls = ls' := ⟨congrArg Prod.fst h2, congrArg Prod.snd h2⟩
      rw [hRows_cons_cont s r rs s.handler hc, if_pos rfl]
      refine List.Chain.cons (show nextOfPrev ⟨0, la, ls⟩ r from haddr) ?_
      have hch := ih ⟨s.handler, s.curFunc, s.count + r.size / 16, some (r.addr, r.size)⟩
        r.addr r.size rfl
      exact chain_of_head_eq r ⟨0, r.addr, r.size⟩ rfl rfl hch
    · have hc' : contSame s r = false := by simpa using hc
      rw [hRows_cons_new s r rs s.handler hc', if_neg (by omega)]
      rw [hRows_eq_nil_of_lt rs _ s.handler (by simp)]
      exact List.Chain.nil

theorem chain_aux (rows : List MbRow) : ∀ (s : AState) (h : Nat), h ≠ s.handler →
    List.Chain' nextOfPrev (hRows s rows h) := by
  induction rows with
  | nil => intro s h _; rw [hRows_nil]; simp
  | cons r rs ih =>
    intro s h hne
    by_cases hc : contSame s r = true
    · rw [hRows_cons_cont s r rs h hc, if_neg (fun he => hne he.symm)]
      exact ih _ h hne
    · have hc' : contSame s r = false := by simpa using hc
      by_cases hh : s.handler + 1 = h
      · rw [hRows_cons_new s r rs h hc', if_pos hh]
        have hch := chain_cur rs ⟨s.handler + 1, some r.func, r.size / 16,
          some (r.addr, r.size)⟩ r.addr r.size rfl
        have hch2 : List.Chain nextOfPrev r
            (hRows ⟨s.handler + 1, some r.func, r.size / 16, some (r.addr, r.size)⟩ rs
              (s.handler + 1)) := chain_of_head_eq r ⟨0, r.addr, r.size⟩ rfl rfl hch
        have hch3 : List.Chain nextOfPrev r
            (hRows ⟨s.handler + 1, some r.func, r.size / 16, some (r.addr, r.size)⟩ rs h) := by
          rw [← hh]
          exact hch2
        exact hch3
      · rw [hRows_cons_new s r rs h hc', if_neg hh]
        exact ih _ h (fun he => hh he.symm)

/-- C3 (counterexample): an 8-bit row and a 16-bit row at the same address
0 both land in handler 1 (the scan's expected-address step is the floor
`8 // 16 = 0`), but in either order of a sort by address the adjacent pair
violates `next.address = prev.address + ceil(prev.width / 16)`, because
`ceil(8 / 16) = ceil(16 / 16) = 1 ≠ 0`. -/
theorem handler_contiguity_counterexample :
    handlerRows [⟨3, 0, 8⟩, ⟨3, 0, 16⟩] 1 = [⟨3, 0, 8⟩, ⟨3, 0, 16⟩] ∧
    ¬ ((0 : Int) = 0 + ((8 + 15) / 16 : Nat)) ∧
    ¬ ((0 : Int) = 0 + ((16 + 15) / 16 : Nat)) := by decide

/-- C3 (amended): for every input row set and handler id, the rows assigned
to the handler, in assignment order, are nondecreasing in address — so a
stable sort by address keeps that order — and every adjacent pair satisfies
`next.address = prev.address + (prev.width // 16)`, with floor division
(`mbTypeSize // 16`) rather than the claimed ceiling. -/
theorem handler_contiguity (rows : List MbRow) (h : Nat) :
    List.Chain' nextOfPrev (handlerRows rows h) ∧
    List.Pairwise (fun a b : MbRow => a.addr ≤ b.addr) (handlerRows rows h) := by
  have hch : List.Chain' nextOfPrev (handlerRows rows h) := by
    unfold handlerRows
    by_cases h0 : h = 0
    · subst h0
      rw [hRows_init_zero]
      simp
    · exact chain_aux rows initState h (show h ≠ 0 from h0)
  refine ⟨hch, ?_⟩
  have hle : List.Chain' (fun a b : MbRow => a.addr ≤ b.addr) (handlerRows rows h) :=
    hch.imp (fun a b hab => by
      unfold nextOfPrev at hab
      have hnn : (0 : Int) ≤ ((a.size / 16 : Nat) : Int) := Int.natCast_nonneg _
      omega)
  haveI : IsTrans MbRow (fun a b : MbRow => a.addr ≤ b.addr) :=
    ⟨fun a b c hab hbc => le_trans hab hbc⟩
  exact List.chain'_iff_pairwise.mp hle

/-! ## Claim C4: handler homogeneity -/

/-- All rows the scan adds to the handler it is currently filling carry the
state's current function code. -/
theorem homog_cur (rows : List MbRow) : ∀ (s : AState) (f : Int), s.curFunc = some f →
    ∀ r ∈ hRows s rows s.handler, r.func = f := by
  induction rows with
  | nil => intro s f _ r hr; rw [hRows_nil] at hr; simp at hr
  | cons r rs ih =>
    intro s f hf r' hr'
    by_cases hc : contSame s r = true
    · rw [hRows_cons_cont s r rs s.handler hc, if_pos rfl] at hr'
      rcases List.mem_cons.mp hr' with hEq | hmem
      · obtain ⟨la, ls, hcf, _, _, _⟩ := (contSame_iff s r).mp hc
        rw [hf] at hcf
        rw [hEq]
        exact (Option.some.inj hcf).symm
      · exact ih ⟨s.handler, s.curFunc, s.count + r.size / 16, some (r.addr, r.size)⟩ f hf r' hmem
    · have hc' : contSame s r = false := by simpa using hc
      rw [hRows_cons_new s r rs s.handler hc', if_neg (by omega)] at hr'
      rw [hRows_eq_nil_of_lt rs _ s.handler (by simp)] at hr'
      simp at hr'

theorem homog_aux (rows : List MbRow) : ∀ (s : AState) (h : Nat), h ≠ s.handler →
    ∀ r ∈ hRows s rows h, ∀ r' ∈ hRows s rows h, r.func = r'.func := by
  induction rows with
  | nil => intro s h _ r hr; rw [hRows_nil] at hr; simp at hr
  | cons r rs ih =>
    intro s h hne a ha b hb
    by_cases hc : contSame s r = true
    · rw [hRows_cons_cont s r rs h hc, if_neg (fun he => hne he.symm)] at ha hb
      exact ih ⟨s.handler, s.curFunc, s.count + r.size / 16, some (r.addr, r.size)⟩
        h hne a ha b hb
    · have hc' : contSame s r = false := by simpa using hc
      by_cases hh : s.handler + 1 = h
      · rw [hRows_cons_new s r rs h hc', if_pos hh] at ha hb
        have hall : ∀ x ∈ hRows ⟨s.handler + 1, some r.func, r.size / 16,
            some (r.addr, r.size)⟩ rs h, x.func = r.func := by
          intro x hx
          have hx2 : x ∈ hRows ⟨s.handler + 1, some r.func, r.size / 16,
              some (r.addr, r.size)⟩ rs (s.handler + 1) := by
            rw [← hh] at hx
            exact hx
          exact homog_cur rs _ r.func rfl x hx2
        rcases List.mem_cons.mp ha with haEq | ha2 <;> rcases List.mem_cons.mp hb with hbEq | hb2
        · rw [haEq, hbEq]
        · rw [haEq, (hall b hb2)]
        · rw [hbEq, (hall a ha2)]
        · rw [hall a ha2, hall b hb2]
      · rw [hRows_cons_new s r rs h hc', if_neg hh] at ha hb
        exact ih ⟨s.handler + 1, some r.func, r.size / 16, some (r.addr, r.size)⟩
          h (fun he => hh he.symm) a ha b hb

/-- C4: for every input row set and every handler id, all rows assigned to
that handler have equal function codes. -/
theorem handler_homogeneous (rows : List MbRow) (h : Nat) :
    ∀ r ∈ handlerRows rows h, ∀ r' ∈ handlerRows rows h, r.func = r'.func := by
  unfold handlerRows
  by_cases h0 : h = 0
  · subst h0
    rw [hRows_init_zero]
    intro r hr
    simp at hr
  · exact homog_aux rows initState h (show h ≠ 0 from h0)

/-- C4 (witness): the two members of handler 1 of a two-row input share
function code 3. -/
theorem handler_homogeneous_witness :
    (⟨3, 0, 16⟩ : MbRow).func = (⟨3, 1, 16⟩ : MbRow).func :=
  handler_homogeneous [⟨3, 0, 16⟩, ⟨3, 1, 16⟩] 1 ⟨3, 0, 16⟩ (by decide) ⟨3, 1, 16⟩ (by decide)

/-! ## Claim C1: the continuation condition of the scan -/

/-- The scan state after folding a prefix of rows from a given state. -/
def stateAfterFrom (s : AState) (l : List MbRow) : AState :=
  l.foldl (fun s r => (hstep s r).1) s

/-- The scan state of `assign_mb_handler` just before row `i` is processed. -/
def stateBefore (rows : List MbRow) (i : Nat) : AState :=
  stateAfterFrom initState (rows.take i)

theorem assignPairs_length (rows : List MbRow) : ∀ s : AState,
    (assignPairs s rows).length = rows.length := by
  induction rows with
  | nil => intro s; rfl
  | cons r rs ih => intro s; simp [assignPairs, ih]

theorem assignHandlers_length (rows : List MbRow) :
    (assignHandlers rows).length = rows.length := by
  simp [assignHandlers, assignPairs_length]

theorem assignFrom_get (rows : List MbRow) : ∀ (s : AState) (i : Nat) (hi : i < rows.length),
    ((assignPairs s rows).map Prod.fst).get
        ⟨i, by rw [List.length_map, assignPairs_length]; exact hi⟩ =
      (hstep (stateAfterFrom s (rows.take i)) (rows.get ⟨i, hi⟩)).2 := by
  induction rows with
  | nil => intro s i hi; exact absurd hi (by simp)
  | cons r rs ih =>
    intro s i hi
    cases i with
    | zero => simp [assignPairs, stateAfterFrom]
    | succ j =>
      have hj : j < rs.length := by simpa using hi
      have hih := ih (hstep s r).1 j hj
      simpa [assignPairs, stateAfterFrom] using hih

/-- C1 (counterexample): in an input of 124 contiguous 16-bit rows of
function code 3 followed by an 8-bit and a 16-bit row at address 124, row
index 123 satisfies every condition of the claim — same function code,
occupied width after appending `123 + ceil(16/16) = 124 ≤ 124`, address
`123 = 122 + ceil(16/16)` — yet the scan starts a new handler (2 instead
of 1), because the code requires the count to stay strictly below 124; and
row index 125 violates the claim's ceiling contiguity
(`124 ≠ 124 + ceil(8/16)`), yet the scan continues handler 2, because the
code steps addresses by the floor `8 // 16 = 0`. -/
def cexRows : List MbRow :=
  (List.range 124).map (fun i => ⟨3, (i : Int), 16⟩) ++ [⟨3, 124, 8⟩, ⟨3, 124, 16⟩]

set_option maxRecDepth 40000 in
theorem handler_continue_counterexample :
    (assignHandlers cexRows).get ⟨122, by decide⟩ = 1 ∧
    (assignHandlers cexRows).get ⟨123, by decide⟩ = 2 ∧
    cexRows.get ⟨123, by decide⟩ = ⟨3, 123, 16⟩ ∧
    (stateBefore cexRows 123).curFunc = some 3 ∧
    (stateBefore cexRows 123).count = 123 ∧
    (stateBefore cexRows 123).last = some (122, 16) ∧
    ((123 : Int) = 122 + ((16 + 15) / 16 : Nat)) ∧
    123 + (16 + 15) / 16 ≤ 124 ∧
    (assignHandlers cexRows).get ⟨124, by decide⟩ = 2 ∧
    (assignHandlers cexRows).get ⟨125, by decide⟩ = 2 ∧
    cexRows.get ⟨125, by decide⟩ = ⟨3, 124, 16⟩ ∧
    (stateBefore cexRows 125).last = some (124, 8) ∧
    ¬ ((124 : Int) = 124 + ((8 + 15) / 16 : Nat)) := by decide

/-- C1 (amended): a row continues the current handler if and only if a
current handler exists (a previous row was placed), its function code
equals the row's, the occupied width after appending the row's
`width // 16` units stays strictly below 124 (at most 123), and the row's
address equals the last placed row's address plus the floor
`last width // 16` (not the ceiling). -/
theorem handler_continue_iff (rows : List MbRow) (i : Fin rows.length) :
    ((assignHandlers rows).get ⟨i.val, by rw [assignHandlers_length]; exact i.isLt⟩ =
        (stateBefore rows i.val).handler) ↔
      ∃ la ls, (stateBefore rows i.val).curFunc = some (rows.get i).func ∧
        (stateBefore rows i.val).last = some (la, ls) ∧
        (stateBefore rows i.val).count + (rows.get i).size / 16 < 124 ∧
        (rows.get i).addr = la + (ls / 16 : Nat) := by
  rw [← contSame_iff]
  have hget := assignFrom_get rows initState i.val i.isLt
  have hst : stateAfterFrom initState (rows.take i.val) = stateBefore rows i.val := rfl
  rw [hst] at hget
  have hi2 : rows.get ⟨i.val, i.isLt⟩ = rows.get i := by
    congr
  rw [hi2] at hget
  show ((assignPairs initState rows).map Prod.fst).get
      ⟨i.val, by rw [List.length_map, assignPairs_length]; exact i.isLt⟩ =
      (stateBefore rows i.val).handler ↔ _
  rw [hget]
  by_cases hc : contSame (stateBefore rows i.val) (rows.get i) = true
  · rw [hstep_cont _ _ hc]
    constructor
    · intro _
      exact hc
    · intro _
      rfl
  · have hc' : contSame (stateBefore rows i.val) (rows.get i) = false := by simpa using hc
    rw [hstep_new _ _ hc']
    constructor
    · intro h12
      have h13 : (stateBefore rows i.val).handler + 1 = (stateBefore rows i.val).handler := h12
      omega
    · intro hcc
      rw [hcc] at hc'
      exact absurd hc' (by simp)

/-! ## Claim C8: the offset projection -/

/-- The `(__base_index, __iteration)` key of an expanded row. -/
def keyX (x : XRow) : Nat × Nat := (x.base, x.iteration)

/-- The `(__base_index, __iteration)` key of a converted expanded row. -/
def keyA (e : ARow) : Nat × Nat := (e.base, e.iteration)

theorem expandRow_eq (b : Nat) (r : RawRow) (reg : Int)
    (hreg : parseRegister r.register = Except.ok reg) :
    expandRow b r = Except.ok
      (if 1 < parseMultiplier r.multiplier then
        (List.range (parseMultiplier r.multiplier).toNat).map
          (fun i => ⟨b, i, Cell.num (reg + i * parseAddressOffset r.addressOffset), r⟩)
      else [⟨b, 0, r.register, r⟩]) := by
  unfold expandRow
  rw [hreg]

theorem expandRow_err (b : Nat) (r : RawRow) (e : String)
    (hreg : parseRegister r.register = Except.error e) :
    expandRow b r = Except.error e := by
  unfold expandRow
  rw [hreg]

theorem expandFrom_cons_ok (b0 : Nat) (r : RawRow) (rs : List RawRow) (xs : List XRow) :
    expandFrom b0 (r :: rs) = Except.ok xs ↔
      ∃ ys zs, expandRow b0 r = Except.ok ys ∧ expandFrom (b0 + 1) rs = Except.ok zs ∧
        xs = ys ++ zs := by
  constructor
  · intro h
    show ∃ ys zs, _
    rw [show expandFrom b0 (r :: rs) =
        (match expandRow b0 r, expandFrom (b0 + 1) rs with
          | Except.error e, _ => Except.error e
          | Except.ok _, Except.error e => Except.error e
          | Except.ok xs, Except.ok rest => Except.ok (xs ++ rest)) from rfl] at h
    cases h1 : expandRow b0 r with
    | error e =>
      rw [h1] at h
      cases h2 : expandFrom (b0 + 1) rs <;> rw [h2] at h <;> exact Except.noConfusion h
    | ok ys =>
      rw [h1] at h
      cases h2 : expandFrom (b0 + 1) rs with
      | error e => rw [h2] at h; exact Except.noConfusion h
      | ok zs =>
        rw [h2] at h
        exact ⟨ys, zs, rfl, rfl, (Except.ok.inj h).symm⟩
  · rintro ⟨ys, zs, h1, h2, rfl⟩
    show (match expandRow b0 r, expandFrom (b0 + 1) rs with
      | Except.error e, _ => Except.error e
      | Except.ok _, Except.error e => Except.error e
      | Except.ok xs, Except.ok rest => Except.ok (xs ++ rest)) = _
    rw [h1, h2]

theorem expandRow_base (b : Nat) (r : RawRow) (ys : List XRow)
    (hok : expandRow b r = Except.ok ys) : ∀ x ∈ ys, x.base = b := by
  cases hreg : parseRegister r.register with
  | error e => rw [expandRow_err b r e hreg] at hok; exact Except.noConfusion hok
  | ok reg =>
    rw [expandRow_eq b r reg hreg] at hok
    have hys := (Except.ok.inj hok).symm
    subst hys
    by_cases hm : 1 < parseMultiplier r.multiplier
    · rw [if_pos hm]
      intro x hx
      obtain ⟨i, _, rfl⟩ := List.mem_map.mp hx
      rfl
    · rw [if_neg hm]
      intro x hx
      rw [List.mem_singleton.mp hx]

theorem expandRow_keys_nodup (b : Nat) (r : RawRow) (ys : List XRow)
    (hok : expandRow b r = Except.ok ys) : (ys.map keyX).Nodup := by
  cases hreg : parseRegister r.register with
  | error e => rw [expandRow_err b r e hreg] at hok; exact Except.noConfusion hok
  | ok reg =>
    rw [expandRow_eq b r reg hreg] at hok
    have hys := (Except.ok.inj hok).symm
    subst hys
    by_cases hm : 1 < parseMultiplier r.multiplier
    · rw [if_pos hm, List.map_map]
      have : (keyX ∘ fun i =>
          (⟨b, i, Cell.num (reg + i * parseAddressOffset r.addressOffset), r⟩ : XRow)) =
          fun i => (b, i) := rfl
      rw [this]
      exact (List.nodup_range _).map (fun i j hij => (Prod.mk.injEq b i b j ▸ hij : _ ∧ _).2)
    · rw [if_neg hm]
      simp

theorem expandRow_iter0 (b : Nat) (r : RawRow) (ys : List XRow)
    (hok : expandRow b r = Except.ok ys) : ∃ x ∈ ys, x.base = b ∧ x.iteration = 0 := by
  cases hreg : parseRegister r.register with
  | error e => rw [expandRow_err b r e hreg] at hok; exact Except.noConfusion hok
  | ok reg =>
    rw [expandRow_eq b r reg hreg] at hok
    have hys := (Except.ok.inj hok).symm
    subst hys
    by_cases hm : 1 < parseMultiplier r.multiplier
    · rw [if_pos hm]
      refine ⟨⟨b, 0, Cell.num (reg + 0 * parseAddressOffset r.addressOffset), r⟩, ?_, rfl, rfl⟩
      exact List.mem_map.mpr ⟨0, List.mem_range.mpr (by omega), rfl⟩
    · rw [if_neg hm]
      exact ⟨⟨b, 0, r.register, r⟩, List.mem_singleton.mpr rfl, rfl, rfl⟩

theorem expandRow_iter_pos (b : Nat) (r : RawRow) (ys : List XRow)
    (hok : expandRow b r = Except.ok ys) :
    ∀ x ∈ ys, x.iteration ≠ 0 → 1 < parseMultiplier r.multiplier := by
  cases hreg : parseRegister r.register with
  | error e => rw [expandRow_err b r e hreg] at hok; exact Except.noConfusion hok
  | ok reg =>
    rw [expandRow_eq b r reg hreg] at hok
    have hys := (Except.ok.inj hok).symm
    subst hys
    by_cases hm : 1 < parseMultiplier r.multiplier
    · intro x _ _
      exact hm
    · rw [if_neg hm]
      intro x hx hiter
      rw [List.mem_singleton.mp hx] at hiter
      exact absurd rfl hiter

theorem expandFrom_base_range (rows : List RawRow) : ∀ (b0 : Nat) (xs : List XRow),
    expandFrom b0 rows = Except.ok xs → ∀ x ∈ xs, b0 ≤ x.base ∧ x.base < b0 + rows.length := by
  induction rows with
  | nil =>
    intro b0 xs hok x hx
    rw [show expandFrom b0 [] = Except.ok [] from rfl] at hok
    rw [← Except.ok.inj hok] at hx
    exact absurd hx (List.not_mem_nil x)
  | cons r rs ih =>
    intro b0 xs hok x hx
    obtain ⟨ys, zs, h1, h2, rfl⟩ := (expandFrom_cons_ok b0 r rs xs).mp hok
    rcases List.mem_append.mp hx with hy | hz
    · have := expandRow_base b0 r ys h1 x hy
      simp [this]
    · have := ih (b0 + 1) zs h2 x hz
      constructor <;> [omega; (simp only [List.length_cons]; omega)]

theorem expandFrom_keys_nodup (rows : List RawRow) : ∀ (b0 : Nat) (xs : List XRow),
    expandFrom b0 rows = Except.ok xs → (xs.map keyX).Nodup := by
  induction rows with
  | nil =>
    intro b0 xs hok
    rw [show expandFrom b0 [] = Except.ok [] from rfl] at hok
    rw [← Except.ok.inj hok]
    exact List.nodup_nil
  | cons r rs ih =>
    intro b0 xs hok
    obtain ⟨ys, zs, h1, h2, rfl⟩ := (expandFrom_cons_ok b0 r rs xs).mp hok
    rw [List.map_append]
    refine List.Nodup.append (expandRow_keys_nodup b0 r ys h1) (ih (b0 + 1) zs h2) ?_
    intro k hky hkz
    obtain ⟨y, hy, rfl⟩ := List.mem_map.mp hky
    obtain ⟨z, hz, hkey⟩ := List.mem_map.mp hkz
    have hyb : y.base = b0 := expandRow_base b0 r ys h1 y hy
    have hzb : b0 + 1 ≤ z.base := (expandFrom_base_range rs (b0 + 1) zs h2 z hz).1
    have : z.base = y.base := congrArg Prod.fst hkey
    omega

theorem expandFrom_iter0 (rows : List RawRow) : ∀ (b0 : Nat) (xs : List XRow),
    expandFrom b0 rows = Except.ok xs → ∀ j, j < rows.length →
      ∃ x ∈ xs, x.base = b0 + j ∧ x.iteration = 0 := by
  induction rows with
  | nil => intro b0 xs _ j hj; exact absurd hj (by simp)
  | cons r rs ih =>
    intro b0 xs hok j hj
    obtain ⟨ys, zs, h1, h2, rfl⟩ := (expandFrom_cons_ok b0 r rs xs).mp hok
    cases j with
    | zero =>
      obtain ⟨x, hx, hb, hi⟩ := expandRow_iter0 b0 r ys h1
      exact ⟨x, List.mem_append.mpr (Or.inl hx), by omega, hi⟩
    | succ j' =>
      have hj' : j' < rs.length := by simpa using hj
      obtain ⟨x, hx, hb, hi⟩ := ih (b0 + 1) zs h2 j' hj'
      exact ⟨x, List.mem_append.mpr (Or.inr hx), by omega, hi⟩

theorem expandFrom_iter_pos (rows : List RawRow) : ∀ (b0 : Nat) (xs : List XRow),
    expandFrom b0 rows = Except.ok xs → ∀ x ∈ xs, x.iteration ≠ 0 →
      ∃ j, ∃ hj : j < rows.length, x.base = b0 + j ∧
        1 < parseMultiplier (rows.get ⟨j, hj⟩).multiplier := by
  induction rows with
  | nil =>
    intro b0 xs hok x hx _
    rw [show expandFrom b0 [] = Except.ok [] from rfl] at hok
    rw [← Except.ok.inj hok] at hx
    exact absurd hx (List.not_mem_nil x)
  | cons r rs ih =>
    intro b0 xs hok x hx hiter
    obtain ⟨ys, zs, h1, h2, rfl⟩ := (expandFrom_cons_ok b0 r rs xs).mp hok
    rcases List.mem_append.mp hx with hy | hz
    · refine ⟨0, by simp, ?_, ?_⟩
      · rw [expandRow_base b0 r ys h1 x hy]
        omega
      · exact expandRow_iter_pos b0 r ys h1 x hy hiter
    · obtain ⟨j, hj, hb, hm⟩ := ih (b0 + 1) zs h2 x hz hiter
      refine ⟨j + 1, by simpa using hj, by omega, ?_⟩
      simpa using hm

theorem toARow_key (x : XRow) (e : ARow) (h : toARow x = Except.ok e) : keyA e = keyX x := by
  unfold toARow at h
  cases ha : astypeInt x.register with
  | error er => rw [ha] at h; exact Except.noConfusion h
  | ok a =>
    rw [ha] at h
    rw [← Except.ok.inj h]
    rfl

theorem toARows_forall2 (xs : List XRow) : ∀ as : List ARow, toARows xs = Except.ok as →
    List.Forall₂ (fun x e => toARow x = Except.ok e) xs as := by
  induction xs with
  | nil =>
    intro as hok
    rw [show toARows [] = Except.ok [] from rfl] at hok
    rw [← Except.ok.inj hok]
    exact List.Forall₂.nil
  | cons x xs' ih =>
    intro as hok
    rw [show toARows (x :: xs') =
        (match toARow x, toARows xs' with
          | Except.error e, _ => Except.error e
          | Except.ok _, Except.error e => Except.error e
          | Except.ok a, Except.ok rest => Except.ok (a :: rest)) from rfl] at hok
    cases h1 : toARow x with
    | error e =>
      rw [h1] at hok
      cases h2 : toARows xs' <;> rw [h2] at hok <;> exact Except.noConfusion hok
    | ok a =>
      rw [h1] at hok
      cases h2 : toARows xs' with
      | error e => rw [h2] at hok; exact Except.noConfusion hok
      | ok rest =>
        rw [h2] at hok
        rw [← Except.ok.inj hok]
        exact List.Forall₂.cons h1 (ih rest h2)

theorem keys_eq_of_forall2 : ∀ {xs : List XRow} {as : List ARow},
    List.Forall₂ (fun x e => toARow x = Except.ok e) xs as →
    as.map keyA = xs.map keyX := by
  intro xs as h
  induction h with
  | nil => rfl
  | cons h1 _ ih =>
    simp only [List.map_cons, ih, List.cons.injEq]
    exact ⟨toARow_key _ _ h1, trivial⟩

theorem zip_snd_map {α β γ : Type} (f : β → γ) :
    ∀ (hs : List α) (l : List β), hs.length = l.length →
    (hs.zip l).map (fun q => f q.2) = l.map f := by
  intro hs
  induction hs with
  | nil =>
    intro l h
    cases l with
    | nil => rfl
    | cons b bs => simp at h
  | cons a as ih =>
    intro l h
    cases l with
    | nil => simp at h
    | cons b bs =>
      simp only [List.zip_cons_cons, List.map_cons]
      rw [ih bs (by simpa using h)]

theorem mem_zip_right {α β : Type} :
    ∀ (hs : List α) (l : List β), hs.length = l.length → ∀ e ∈ l, ∃ a, (a, e) ∈ hs.zip l := by
  intro hs
  induction hs with
  | nil =>
    intro l h e he
    cases l with
    | nil => exact absurd he (List.not_mem_nil e)
    | cons b bs => simp at h
  | cons a as ih =>
    intro l h e he
    cases l with
    | nil => exact absurd he (List.not_mem_nil e)
    | cons b bs =>
      rcases List.mem_cons.mp he with hEq | hmem
      · exact ⟨a, by rw [hEq]; simp [List.zip_cons_cons]⟩
      · obtain ⟨a', ha'⟩ := ih bs (by simpa using h) e hmem
        exact ⟨a', by simp [List.zip_cons_cons, ha']⟩

theorem find_pair_unique :
    ∀ asg : List (Nat × ARow), (asg.map (fun q => keyA q.2)).Nodup →
    ∀ p : Nat × ARow, p ∈ asg → ∀ b i : Nat, keyA p.2 = (b, i) →
    asg.find? (fun q => decide (q.2.base = b ∧ q.2.iteration = i)) = some p := by
  intro asg
  induction asg with
  | nil => intro _ p hp; exact absurd hp (List.not_mem_nil p)
  | cons q qs ih =>
    intro hnd p hp b i hk
    rw [List.map_cons, List.nodup_cons] at hnd
    by_cases hq : q.2.base = b ∧ q.2.iteration = i
    · have hkq : keyA q.2 = (b, i) := by
        show (q.2.base, q.2.iteration) = (b, i)
        rw [hq.1, hq.2]
      have hfind : (q :: qs).find? (fun q => decide (q.2.base = b ∧ q.2.iteration = i)) =
          some q := List.find?_cons_of_pos _ (by simpa using hq)
      rcases List.mem_cons.mp hp with hEq | hmem
      · rw [hfind, hEq]
      · exfalso
        apply hnd.1
        rw [hkq, ← hk]
        exact List.mem_map.mpr ⟨p, hmem, rfl⟩
    · have hfind : (q :: qs).find? (fun q => decide (q.2.base = b ∧ q.2.iteration = i)) =
          qs.find? (fun q => decide (q.2.base = b ∧ q.2.iteration = i)) :=
        List.find?_cons_of_neg _ (by simpa using hq)
      rcases List.mem_cons.mp hp with hEq | hmem
      · exfalso
        apply hq
        rw [hEq] at hk
        exact ⟨congrArg Prod.fst hk, congrArg Prod.snd hk⟩
      · rw [hfind]
        exact ih hnd.2 p hmem b i hk

/-- C8: for every base variable of a successfully processed row set, the
projection has exactly one entry (one per base index): its `mbHandler` is
the handler id of its iteration-0 expanded row — which always exists —
and its `mbHandlerOffset` is the handler id at iteration 1 minus the
handler id at iteration 0 when an iteration-1 expanded row exists, and 0
otherwise; in particular it is 0 for every variable with multiplier ≤ 1,
whose expansion has no iteration-1 row. -/
theorem projection_spec (rows : List RawRow) (asg : List (Nat × ARow)) (b : Nat)
    (hok : pipelineAssigned rows = Except.ok asg) (hb : b < rows.length) :
    processProjection rows =
      Except.ok ((List.range rows.length).map (fun k => (projHandler asg k, projOffset asg k))) ∧
    (∃ p ∈ asg, p.2.base = b ∧ p.2.iteration = 0) ∧
    (∀ p ∈ asg, p.2.base = b → p.2.iteration = 0 → projHandler asg b = some p.1) ∧
    ((¬ ∃ q ∈ asg, q.2.base = b ∧ q.2.iteration = 1) → projOffset asg b = 0) ∧
    (parseMultiplier (rows.get ⟨b, hb⟩).multiplier ≤ 1 →
      ¬ ∃ q ∈ asg, q.2.base = b ∧ q.2.iteration = 1) ∧
    (∀ p ∈ asg, ∀ q ∈ asg, p.2.base = b → p.2.iteration = 0 → q.2.base = b →
      q.2.iteration = 1 → projOffset asg b = (q.1 : Int) - (p.1 : Int)) := by
  have hproj : processProjection rows =
      Except.ok ((List.range rows.length).map (fun k => (projHandler asg k, projOffset asg k))) := by
    show (match pipelineAssigned rows with
      | Except.error e => Except.error e
      | Except.ok asg =>
        Except.ok ((List.range rows.length).map (fun k => (projHandler asg k, projOffset asg k)))) = _
    rw [hok]
  have hok' := hok
  rw [show pipelineAssigned rows =
      (match expand_rows rows with
        | Except.error e => Except.error e
        | Except.ok xs =>
          match toARows xs with
          | Except.error e => Except.error e
          | Except.ok as =>
            Except.ok ((assignHandlers ((sortExpanded as).map toMb)).zip (sortExpanded as)))
      from rfl] at hok'
  cases hex : expand_rows rows with
  | error e => rw [hex] at hok'; exact Except.noConfusion hok'
  | ok xs =>
    rw [hex] at hok'
    have hok2 : (match toARows xs with
        | Except.error e => Except.error e
        | Except.ok as =>
          Except.ok ((assignHandlers ((sortExpanded as).map toMb)).zip (sortExpanded as))) =
        Except.ok asg := hok'
    cases hta : toARows xs with
    | error e => rw [hta] at hok2; exact Except.noConfusion hok2
    | ok as =>
      rw [hta] at hok2
      have hasg : asg = (assignHandlers ((sortExpanded as).map toMb)).zip (sortExpanded as) :=
        (Except.ok.inj hok2).symm
      have hlen : (assignHandlers ((sortExpanded as).map toMb)).length =
          (sortExpanded as).length := by
        rw [assignHandlers_length, List.length_map]
      have hperm : (sortExpanded as).Perm as := List.perm_insertionSort rowLe as
      have hkeysX : (xs.map keyX).Nodup := expandFrom_keys_nodup rows 0 xs hex
      have hkeysAS : as.map keyA = xs.map keyX := keys_eq_of_forall2 (toARows_forall2 xs as hta)
      have hkeysSorted : ((sortExpanded as).map keyA).Perm (xs.map keyX) := by
        rw [← hkeysAS]
        exact hperm.map keyA
      have hnd : (asg.map (fun q => keyA q.2)).Nodup := by
        rw [hasg, zip_snd_map keyA _ _ hlen]
        exact hkeysSorted.nodup_iff.mpr hkeysX
      refine ⟨hproj, ?_, ?_, ?_, ?_, ?_⟩
      · -- existence of the iteration-0 pair
        obtain ⟨x, hxmem, hxb, hxi⟩ := expandFrom_iter0 rows 0 xs hex b hb
        have hkey : keyX x = (b, 0) := by
          show (x.base, x.iteration) = (b, 0)
          rw [hxi]
          rw [show x.base = b by omega]
        have hmemk : (b, 0) ∈ as.map keyA := by
          rw [hkeysAS]
          exact List.mem_map.mpr ⟨x, hxmem, hkey⟩
        obtain ⟨e, hemem, hekey⟩ := List.mem_map.mp hmemk
        have hesorted : e ∈ sortExpanded as := hperm.mem_iff.mpr hemem
        obtain ⟨hdl, hpair⟩ := mem_zip_right _ _ hlen e hesorted
        refine ⟨(hdl, e), by rw [hasg]; exact hpair, ?_, ?_⟩
        · exact congrArg Prod.fst hekey
        · exact congrArg Prod.snd hekey
      · -- mbHandler = handler of the iteration-0 row
        intro p hp hpb hpi
        have hkey : keyA p.2 = (b, 0) := by
          show (p.2.base, p.2.iteration) = (b, 0)
          rw [hpb, hpi]
        show (asg.find? (fun q => decide (q.2.base = b ∧ q.2.iteration = 0))).map Prod.fst = _
        rw [find_pair_unique asg hnd p hp b 0 hkey]
        rfl
      · -- no iteration-1 row: offset 0
        intro hno
        have hnone : handlerAt asg b 1 = none := by
          show (asg.find? (fun q => decide (q.2.base = b ∧ q.2.iteration = 1))).map Prod.fst = none
          rw [List.find?_eq_none.mpr]
          · rfl
          · intro q hq hpred
            exact hno ⟨q, hq, of_decide_eq_true hpred⟩
        unfold projOffset
        rw [hnone]
      · -- multiplier ≤ 1: no iteration-1 row exists
        intro hm hex2
        obtain ⟨⟨hdl, e⟩, hqmem, hqb, hqi⟩ := hex2
        have hqz : (hdl, e) ∈ (assignHandlers ((sortExpanded as).map toMb)).zip
            (sortExpanded as) := by
          rw [← hasg]
          exact hqmem
        have hesorted : e ∈ sortExpanded as := (List.of_mem_zip hqz).2
        have heas : e ∈ as := hperm.mem_iff.mp hesorted
        have hkeymem : keyA e ∈ xs.map keyX := by
          rw [← hkeysAS]
          exact List.mem_map.mpr ⟨e, heas, rfl⟩
        obtain ⟨x, hxmem, hxkey⟩ := List.mem_map.mp hkeymem
        have hqb' : e.base = b := hqb
        have hqi' : e.iteration = 1 := hqi
        have hxb : x.base = b := by
          have h6 : x.base = e.base := congrArg Prod.fst hxkey
          rw [h6, hqb']
        have hxi : x.iteration = 1 := by
          have h6 : x.iteration = e.iteration := congrArg Prod.snd hxkey
          rw [h6, hqi']
        obtain ⟨j, hj, hjb, hmul⟩ :=
          expandFrom_iter_pos rows 0 xs hex x hxmem (by rw [hxi]; omega)
        have hc : (⟨j, hj⟩ : Fin rows.length) = ⟨b, hb⟩ := Fin.ext (show j = b by omega)
        rw [hc] at hmul
        omega
      · -- both rows present: offset is the difference of handler ids
        intro p hp q hq hpb hpi hqb hqi
        have hkeyp : keyA p.2 = (b, 0) := by
          show (p.2.base, p.2.iteration) = (b, 0)
          rw [hpb, hpi]
        have hkeyq : keyA q.2 = (b, 1) := by
          show (q.2.base, q.2.iteration) = (b, 1)
          rw [hqb, hqi]
        unfold projOffset handlerAt
        rw [find_pair_unique asg hnd p hp b 0 hkeyp, find_pair_unique asg hnd q hq b 1 hkeyq]
        rfl

/-- C8 (witness): a two-variable input — one with multiplier 2 and offset 1
at register 0, one with multiplier 1 at register 10, both 16-bit function
code 3 — pipelines to handlers 1, 1, 2 on the expanded rows. -/
def rowsW : List RawRow :=
  [⟨Cell.num 2, Cell.num 1, Cell.num 0, 3, some "UINT16"⟩,
   ⟨Cell.num 1, Cell.num 0, Cell.num 10, 3, some "UINT16"⟩]

/-- The assigned expanded table the pipeline produces for `rowsW`. -/
def asgW : List (Nat × ARow) :=
  [(1, ⟨0, 0, 0, 3, 16⟩), (1, ⟨0, 1, 1, 3, 16⟩), (2, ⟨1, 0, 10, 3, 16⟩)]

theorem projection_spec_witness :
    processProjection rowsW =
      Except.ok ((List.range rowsW.length).map
        (fun k => (projHandler asgW k, projOffset asgW k))) ∧
    (∃ p ∈ asgW, p.2.base = 0 ∧ p.2.iteration = 0) ∧
    (∀ p ∈ asgW, p.2.base = 0 → p.2.iteration = 0 → projHandler asgW 0 = some p.1) ∧
    ((¬ ∃ q ∈ asgW, q.2.base = 0 ∧ q.2.iteration = 1) → projOffset asgW 0 = 0) ∧
    (parseMultiplier (rowsW.get ⟨0, by decide⟩).multiplier ≤ 1 →
      ¬ ∃ q ∈ asgW, q.2.base = 0 ∧ q.2.iteration = 1) ∧
    (∀ p ∈ asgW, ∀ q ∈ asgW, p.2.base = 0 → p.2.iteration = 0 → q.2.base = 0 →
      q.2.iteration = 1 → projOffset asgW 0 = (q.1 : Int) - (p.1 : Int)) :=
  projection_spec rowsW asgW 0 (by rfl) (by decide)
